import Mathlib

/-!
Shallow embedding of the schema-reconciliation core of the
SQL-Server-Git-Integration extension, and proofs about it.

The embedded code:
  * `_compareObjects` (src/sourcecontrol/databaseSourceControlProvider.ts,
    lines 650-698): the four-way diff of two object lists.
  * `setMissingTableDefinitions` / `RetrieveDatabaseObjects` (sqlrunner
    module): CREATE TABLE synthesis from catalog metadata rows.
  * `_syncToGit`'s write step and `_getSavedDatabaseObjects`
    (databaseSourceControlProvider.ts, lines 606-648 and 700-733): the
    on-disk snapshot store.

JavaScript `Map` insertion with `set` lets a later duplicate key overwrite
an earlier one; lookups are modelled by a left fold that keeps the last
match.  File contents and names are Lean `String`s; the file system is an
association list from directory path to a tree of named entries.
-/

/-- One schema object, mirroring the `DatabaseObject` interface of the
sqlrunner module: `{schema, name, type, definition}`. -/
structure DatabaseObject where
  schema : String
  name : String
  type : String
  definition : String
  deriving DecidableEq, Repr

/-- The identity key built throughout the provider:
`` `${obj.schema}.${obj.name}.${obj.type}` ``. -/
def objKey (o : DatabaseObject) : String :=
  o.schema ++ "." ++ o.name ++ "." ++ o.type

/-- The identity triple `(schema, name, kind)` of the spec's data model. -/
def keyTriple (o : DatabaseObject) : String × String × String :=
  (o.schema, o.name, o.type)

/-- `Map.get` after building a `Map` by `set` over the list in order: the
last object whose key matches wins, as a later `set` overwrites an earlier
one.  Stated recursively: a match later in the list shadows the head. -/
def lastWithKey : List DatabaseObject → String → Option DatabaseObject
  | [], _ => none
  | o :: rest, k =>
    match lastWithKey rest k with
    | some x => some x
    | none => if objKey o = k then some o else none

/-- `Map.has` on the same map: some object of the list has the key. -/
def hasKey (objs : List DatabaseObject) (k : String) : Bool :=
  objs.any (fun o => objKey o == k)

/-- The four result lists of `_compareObjects`.  `modified` carries the
current and the saved version, as `{current: obj, saved: savedObj}`. -/
structure ComparisonResult where
  added : List DatabaseObject
  modified : List (DatabaseObject × DatabaseObject)
  deleted : List DatabaseObject
  unchanged : List DatabaseObject
  deriving DecidableEq, Repr

/-- `_compareObjects` (lines 650-698).  The source makes one `forEach` pass
over `current`, pushing each object to exactly one of `added` / `modified` /
`unchanged` according to `savedMap.get(key)`, then one pass over `saved`
pushing to `deleted` when `currentMap.has(key)` fails.  The single pass is
rendered as one filter per output list with the very same per-object
condition; order and multiplicity agree with the pushes. -/
def compareObjects (current saved : List DatabaseObject) : ComparisonResult :=
  { added := current.filter fun o => (lastWithKey saved (objKey o)).isNone
    modified := current.filterMap fun o =>
      match lastWithKey saved (objKey o) with
      | some s => if o.definition ≠ s.definition then some (o, s) else none
      | none => none
    deleted := saved.filter fun s => !(hasKey current (objKey s))
    unchanged := current.filter fun o =>
      match lastWithKey saved (objKey o) with
      | some s => o.definition == s.definition
      | none => false }

/-! ### Basic facts about the saved-side map -/

theorem lastWithKey_mem (l : List DatabaseObject) (k : String) (x : DatabaseObject)
    (h : lastWithKey l k = some x) : x ∈ l ∧ objKey x = k := by
  induction l with
  | nil => simp [lastWithKey] at h
  | cons a l ih =>
    rw [lastWithKey] at h
    cases hfold : lastWithKey l k with
    | some y =>
      rw [hfold] at h
      obtain rfl : y = x := by simpa using h
      obtain ⟨hy, hk⟩ := ih hfold
      exact ⟨List.mem_cons_of_mem a hy, hk⟩
    | none =>
      rw [hfold] at h
      by_cases hk : objKey a = k
      · rw [if_pos hk] at h
        obtain rfl : a = x := by simpa using h
        exact ⟨List.mem_cons_self a l, hk⟩
      · simp [if_neg hk] at h

theorem lastWithKey_eq_none_iff (l : List DatabaseObject) (k : String) :
    lastWithKey l k = none ↔ ∀ o ∈ l, objKey o ≠ k := by
  induction l with
  | nil => simp [lastWithKey]
  | cons a l ih =>
    rw [lastWithKey]
    cases hfold : lastWithKey l k with
    | some x =>
      simp only [List.mem_cons]
      constructor
      · intro h
        simp at h
      · intro hall
        obtain ⟨hx, hk⟩ := lastWithKey_mem l k x hfold
        exact absurd hk (hall x (Or.inr hx))
    | none =>
      constructor
      · intro h o ho
        rcases List.mem_cons.mp ho with rfl | ho'
        · intro hk
          simp [hk] at h
        · exact (ih.mp hfold) o ho'
      · intro hall
        have : objKey a ≠ k := hall a (List.mem_cons_self a l)
        simp [this]

theorem lastWithKey_of_nodup (l : List DatabaseObject) (k : String) (s : DatabaseObject)
    (hnd : (l.map objKey).Nodup) (hs : s ∈ l) (hk : objKey s = k) :
    lastWithKey l k = some s := by
  induction l with
  | nil => simp at hs
  | cons a l ih =>
    rw [lastWithKey]
    simp only [List.map_cons, List.nodup_cons] at hnd
    rcases List.mem_cons.mp hs with rfl | hs'
    · have hnone : lastWithKey l k = none := by
        rw [lastWithKey_eq_none_iff]
        intro o ho hko
        apply hnd.1
        rw [hk, ← hko]
        exact List.mem_map_of_mem objKey ho
      rw [hnone, if_pos hk]
    · have := ih hnd.2 hs'
      rw [this]

theorem hasKey_iff (l : List DatabaseObject) (k : String) :
    hasKey l k = true ↔ ∃ o ∈ l, objKey o = k := by
  simp [hasKey, List.any_eq_true]

/-! ### Membership in each result list -/

theorem mem_added_iff (current saved : List DatabaseObject) (o : DatabaseObject) :
    o ∈ (compareObjects current saved).added ↔
      o ∈ current ∧ lastWithKey saved (objKey o) = none := by
  simp [compareObjects, List.mem_filter, Option.isNone_iff_eq_none]

theorem mem_modified_iff (current saved : List DatabaseObject)
    (p : DatabaseObject × DatabaseObject) :
    p ∈ (compareObjects current saved).modified ↔
      p.1 ∈ current ∧ lastWithKey saved (objKey p.1) = some p.2 ∧
        p.1.definition ≠ p.2.definition := by
  simp only [compareObjects, List.mem_filterMap]
  constructor
  · rintro ⟨a, ha, hf⟩
    cases hlook : lastWithKey saved (objKey a) with
    | none => rw [hlook] at hf; simp at hf
    | some s =>
      rw [hlook] at hf
      dsimp only at hf
      by_cases hdef : a.definition ≠ s.definition
      · rw [if_pos hdef] at hf
        obtain rfl : (a, s) = p := by simpa using hf
        exact ⟨ha, hlook, hdef⟩
      · rw [if_neg hdef] at hf
        simp at hf
  · rintro ⟨h1, h2, h3⟩
    refine ⟨p.1, h1, ?_⟩
    rw [h2]
    dsimp only
    rw [if_pos h3]

theorem mem_unchanged_iff (current saved : List DatabaseObject) (o : DatabaseObject) :
    o ∈ (compareObjects current saved).unchanged ↔
      o ∈ current ∧ ∃ s, lastWithKey saved (objKey o) = some s ∧
        o.definition = s.definition := by
  simp only [compareObjects, List.mem_filter]
  constructor
  · rintro ⟨ho, hcond⟩
    refine ⟨ho, ?_⟩
    cases hlook : lastWithKey saved (objKey o) with
    | none => rw [hlook] at hcond; simp at hcond
    | some s =>
      rw [hlook] at hcond
      dsimp only at hcond
      exact ⟨s, rfl, by simpa using hcond⟩
  · rintro ⟨ho, s, hlook, hdef⟩
    refine ⟨ho, ?_⟩
    rw [hlook]
    dsimp only
    simpa using hdef

theorem mem_deleted_iff (current saved : List DatabaseObject) (s : DatabaseObject) :
    s ∈ (compareObjects current saved).deleted ↔
      s ∈ saved ∧ hasKey current (objKey s) = false := by
  simp only [compareObjects, List.mem_filter, Bool.not_eq_true']

/-! ### C1: classification of the reconciler -/

/-- Concrete current-side object for the C1 witness. -/
def wsCurObj : DatabaseObject := ⟨"dbo", "Orders", "tables", "CREATE TABLE X"⟩

/-- Concrete saved-side object whose definition differs from `wsCurObj`'s
only by one trailing space. -/
def wsSavObj : DatabaseObject := ⟨"dbo", "Orders", "tables", "CREATE TABLE X "⟩

/-- C1: for input lists with unique identity keys per side, `_compareObjects`
classifies a current object with no saved key match as Added; a key match
with differing definition text (exact, case- and whitespace-sensitive string
comparison) as Modified, carrying both versions; a key match with identical
definition as Unchanged; and a saved object with no current key match as
Deleted.  In particular a pair whose definitions differ only by one trailing
space is Modified and never Unchanged. -/
theorem reconciler_classification (current saved : List DatabaseObject)
    (hc : (current.map objKey).Nodup) (hs : (saved.map objKey).Nodup) :
    (∀ o ∈ current, (∀ s ∈ saved, objKey s ≠ objKey o) →
        o ∈ (compareObjects current saved).added)
    ∧ (∀ o ∈ current, ∀ s ∈ saved, objKey s = objKey o →
        o.definition ≠ s.definition → (o, s) ∈ (compareObjects current saved).modified)
    ∧ (∀ o ∈ current, ∀ s ∈ saved, objKey s = objKey o →
        o.definition = s.definition → o ∈ (compareObjects current saved).unchanged)
    ∧ (∀ s ∈ saved, (∀ o ∈ current, objKey o ≠ objKey s) →
        s ∈ (compareObjects current saved).deleted)
    ∧ (∀ o ∈ current, ∀ s ∈ saved, objKey s = objKey o →
        s.definition = o.definition ++ " " →
        (o, s) ∈ (compareObjects current saved).modified ∧
          o ∉ (compareObjects current saved).unchanged) := by
  refine ⟨?_, ?_, ?_, ?_, ?_⟩
  · intro o ho habs
    rw [mem_added_iff]
    exact ⟨ho, (lastWithKey_eq_none_iff _ _).mpr habs⟩
  · intro o ho s hsmem hk hdef
    rw [mem_modified_iff]
    exact ⟨ho, lastWithKey_of_nodup saved _ s hs hsmem hk, hdef⟩
  · intro o ho s hsmem hk hdef
    rw [mem_unchanged_iff]
    exact ⟨ho, s, lastWithKey_of_nodup saved _ s hs hsmem hk, hdef⟩
  · intro s hsmem habs
    rw [mem_deleted_iff]
    refine ⟨hsmem, ?_⟩
    rw [← Bool.not_eq_true, hasKey_iff]
    rintro ⟨o, ho, hko⟩
    exact habs o ho hko
  · intro o ho s hsmem hk hws
    have hdef : o.definition ≠ s.definition := by
      intro heq
      have hlen : s.definition.length = o.definition.length + 1 := by
        rw [hws, String.length_append]
        rfl
      rw [heq] at hlen
      omega
    constructor
    · rw [mem_modified_iff]
      exact ⟨ho, lastWithKey_of_nodup saved _ s hs hsmem hk, hdef⟩
    · intro hmem
      rw [mem_unchanged_iff] at hmem
      obtain ⟨-, s', hlook', hdef'⟩ := hmem
      rw [lastWithKey_of_nodup saved _ s hs hsmem hk] at hlook'
      obtain rfl : s = s' := by simpa using hlook'
      exact hdef hdef'

/-- Witness for C1 at a concrete input: trailing-whitespace difference is
classified Modified, not Unchanged. -/
theorem reconciler_classification_witness :
    (wsCurObj, wsSavObj) ∈ (compareObjects [wsCurObj] [wsSavObj]).modified ∧
      wsCurObj ∉ (compareObjects [wsCurObj] [wsSavObj]).unchanged :=
  (reconciler_classification [wsCurObj] [wsSavObj] (by decide) (by decide)).2.2.2.2
    wsCurObj (by decide) wsSavObj (by decide) (by decide) (by decide)

/-! ### C10: totality of the reconciler on all inputs -/

theorem compare_length_sum (current saved : List DatabaseObject) :
    (compareObjects current saved).added.length
      + (compareObjects current saved).modified.length
      + (compareObjects current saved).unchanged.length = current.length := by
  induction current with
  | nil => simp [compareObjects]
  | cons a l ih =>
    cases hlook : lastWithKey saved (objKey a) with
    | none =>
      simp [compareObjects, List.filter_cons, List.filterMap_cons, hlook] at ih ⊢
      omega
    | some s =>
      by_cases hdef : a.definition = s.definition
      · simp [compareObjects, List.filter_cons, List.filterMap_cons, hlook, hdef] at ih ⊢
        omega
      · simp [compareObjects, List.filter_cons, List.filterMap_cons, hlook, hdef] at ih ⊢
        omega

/-- C10: `_compareObjects` performs no duplicate-key validation and never
raises: on all inputs, duplicates included, it classifies every element of
the current array individually against the saved-side map in which a later
duplicate overwrites an earlier one (`lastWithKey`), so the lengths of
added, modified and unchanged always sum to the length of the current
array. -/
theorem reconciler_total (current saved : List DatabaseObject) :
    ((compareObjects current saved).added.length
        + (compareObjects current saved).modified.length
        + (compareObjects current saved).unchanged.length = current.length)
    ∧ (∀ o, o ∈ (compareObjects current saved).added ↔
          o ∈ current ∧ lastWithKey saved (objKey o) = none)
    ∧ (∀ p : DatabaseObject × DatabaseObject,
          p ∈ (compareObjects current saved).modified ↔
            p.1 ∈ current ∧ lastWithKey saved (objKey p.1) = some p.2 ∧
              p.1.definition ≠ p.2.definition)
    ∧ (∀ s, s ∈ (compareObjects current saved).deleted ↔
          s ∈ saved ∧ hasKey current (objKey s) = false) :=
  ⟨compare_length_sum current saved,
   fun o => mem_added_iff current saved o,
   fun p => mem_modified_iff current saved p,
   fun s => mem_deleted_iff current saved s⟩

/-! ### C2: partition of the union of keys -/

/-- All identity keys of a comparison result, one entry per list element:
added, then modified (keyed by its current version), then deleted, then
unchanged. -/
def resultKeys (r : ComparisonResult) : List String :=
  r.added.map objKey ++ r.modified.map (fun p => objKey p.1)
    ++ r.deleted.map objKey ++ r.unchanged.map objKey

/-- Concrete object used duplicated for the C2 counterexample. -/
def dupObj : DatabaseObject := ⟨"dbo", "Orders", "tables", "X"⟩

/-- C2 counterexample: with a duplicate key inside `current`
(`current = [dupObj, dupObj]`, `saved = []`), the key
`dbo.Orders.tables` appears twice in the result's added list, so
`_compareObjects` does not partition the key union without duplicates when
quantified over all inputs. -/
theorem reconciler_partition_counterexample :
    ¬ (resultKeys (compareObjects [dupObj, dupObj] [])).Nodup := by decide

theorem modified_fst_sublist (current saved : List DatabaseObject) :
    ((compareObjects current saved).modified.map Prod.fst).Sublist current := by
  induction current with
  | nil => simp [compareObjects]
  | cons a l ih =>
    simp only [compareObjects, List.filterMap_cons] at ih ⊢
    cases hlook : lastWithKey saved (objKey a) with
    | none => exact List.Sublist.cons a ih
    | some s =>
      dsimp only
      by_cases hdef : a.definition ≠ s.definition
      · rw [if_pos hdef]
        simpa using List.Sublist.cons₂ a ih
      · rw [if_neg hdef]
        exact List.Sublist.cons a ih

theorem key_inj (l : List DatabaseObject) (h : (l.map objKey).Nodup) :
    ∀ a ∈ l, ∀ b ∈ l, objKey a = objKey b → a = b :=
  List.inj_on_of_nodup_map h

theorem key_mem_added_iff (current saved : List DatabaseObject) (k : String) :
    k ∈ (compareObjects current saved).added.map objKey ↔
      ∃ o ∈ current, objKey o = k ∧ lastWithKey saved k = none := by
  simp only [List.mem_map, mem_added_iff]
  constructor
  · rintro ⟨o, ⟨ho, hnone⟩, rfl⟩
    exact ⟨o, ho, rfl, hnone⟩
  · rintro ⟨o, ho, rfl, hnone⟩
    exact ⟨o, ⟨ho, hnone⟩, rfl⟩

theorem key_mem_modified_iff (current saved : List DatabaseObject) (k : String) :
    k ∈ (compareObjects current saved).modified.map (fun p => objKey p.1) ↔
      ∃ o ∈ current, objKey o = k ∧ ∃ s, lastWithKey saved k = some s ∧
        o.definition ≠ s.definition := by
  simp only [List.mem_map, mem_modified_iff]
  constructor
  · rintro ⟨p, ⟨h1, h2, h3⟩, rfl⟩
    exact ⟨p.1, h1, rfl, p.2, h2, h3⟩
  · rintro ⟨o, ho, rfl, s, hlook, hdef⟩
    exact ⟨(o, s), ⟨ho, hlook, hdef⟩, rfl⟩

theorem key_mem_unchanged_iff (current saved : List DatabaseObject) (k : String) :
    k ∈ (compareObjects current saved).unchanged.map objKey ↔
      ∃ o ∈ current, objKey o = k ∧ ∃ s, lastWithKey saved k = some s ∧
        o.definition = s.definition := by
  simp only [List.mem_map, mem_unchanged_iff]
  constructor
  · rintro ⟨o, ⟨ho, s, hlook, hdef⟩, rfl⟩
    exact ⟨o, ho, rfl, s, hlook, hdef⟩
  · rintro ⟨o, ho, rfl, s, hlook, hdef⟩
    exact ⟨o, ⟨ho, s, hlook, hdef⟩, rfl⟩

theorem key_mem_deleted_iff (current saved : List DatabaseObject) (k : String) :
    k ∈ (compareObjects current saved).deleted.map objKey ↔
      ∃ s ∈ saved, objKey s = k ∧ hasKey current k = false := by
  simp only [List.mem_map, mem_deleted_iff]
  constructor
  · rintro ⟨s, ⟨h1, h2⟩, rfl⟩
    exact ⟨s, h1, rfl, h2⟩
  · rintro ⟨s, h1, rfl, h2⟩
    exact ⟨s, ⟨h1, h2⟩, rfl⟩

/-- C2 amended: for current and saved lists whose identity keys are unique
per side, `_compareObjects` partitions the union of the two key sets into
the four result lists: no key is omitted (coverage) and no key appears
twice (the concatenation of all result keys has no duplicate). -/
theorem reconciler_partition (current saved : List DatabaseObject)
    (hc : (current.map objKey).Nodup) (hs : (saved.map objKey).Nodup) :
    (resultKeys (compareObjects current saved)).Nodup
    ∧ ∀ k, k ∈ resultKeys (compareObjects current saved) ↔
        (k ∈ current.map objKey ∨ k ∈ saved.map objKey) := by
  have hmodkeys : (compareObjects current saved).modified.map (fun p => objKey p.1)
      = ((compareObjects current saved).modified.map Prod.fst).map objKey := by
    rw [List.map_map]
    rfl
  have hAsub : ((compareObjects current saved).added.map objKey).Sublist
      (current.map objKey) := (List.filter_sublist current).map objKey
  have hMsub : ((compareObjects current saved).modified.map (fun p => objKey p.1)).Sublist
      (current.map objKey) := by
    rw [hmodkeys]
    exact (modified_fst_sublist current saved).map objKey
  have hUsub : ((compareObjects current saved).unchanged.map objKey).Sublist
      (current.map objKey) := (List.filter_sublist current).map objKey
  have hDsub : ((compareObjects current saved).deleted.map objKey).Sublist
      (saved.map objKey) := (List.filter_sublist saved).map objKey
  have hCD : ∀ k, k ∈ current.map objKey →
      k ∈ (compareObjects current saved).deleted.map objKey → False := by
    intro k hC hD
    obtain ⟨s, -, -, hhas⟩ := (key_mem_deleted_iff current saved k).mp hD
    obtain ⟨o, ho, hko⟩ := List.mem_map.mp hC
    have htrue : hasKey current k = true := (hasKey_iff current k).mpr ⟨o, ho, hko⟩
    rw [hhas] at htrue
    exact Bool.noConfusion htrue
  have hAM : ((compareObjects current saved).added.map objKey).Disjoint
      ((compareObjects current saved).modified.map (fun p => objKey p.1)) := by
    intro k hA hM
    obtain ⟨o, -, -, hnone⟩ := (key_mem_added_iff current saved k).mp hA
    obtain ⟨o', -, -, s, hsome, -⟩ := (key_mem_modified_iff current saved k).mp hM
    rw [hnone] at hsome
    exact Option.noConfusion hsome
  have hAU : ((compareObjects current saved).added.map objKey).Disjoint
      ((compareObjects current saved).unchanged.map objKey) := by
    intro k hA hU
    obtain ⟨o, -, -, hnone⟩ := (key_mem_added_iff current saved k).mp hA
    obtain ⟨o', -, -, s, hsome, -⟩ := (key_mem_unchanged_iff current saved k).mp hU
    rw [hnone] at hsome
    exact Option.noConfusion hsome
  have hMU : ((compareObjects current saved).modified.map (fun p => objKey p.1)).Disjoint
      ((compareObjects current saved).unchanged.map objKey) := by
    intro k hM hU
    obtain ⟨o, ho, hko, s, hsome, hdef⟩ := (key_mem_modified_iff current saved k).mp hM
    obtain ⟨o', ho', hko', s', hsome', hdef'⟩ := (key_mem_unchanged_iff current saved k).mp hU
    obtain rfl : o = o' := key_inj current hc o ho o' ho' (hko.trans hko'.symm)
    rw [hsome] at hsome'
    obtain rfl : s = s' := by simpa using hsome'
    exact hdef hdef'
  have hAD : ((compareObjects current saved).added.map objKey).Disjoint
      ((compareObjects current saved).deleted.map objKey) :=
    fun _ hA hD => hCD _ (hAsub.subset hA) hD
  have hMD : ((compareObjects current saved).modified.map (fun p => objKey p.1)).Disjoint
      ((compareObjects current saved).deleted.map objKey) :=
    fun _ hM hD => hCD _ (hMsub.subset hM) hD
  have hDU : ((compareObjects current saved).deleted.map objKey).Disjoint
      ((compareObjects current saved).unchanged.map objKey) :=
    fun _ hD hU => hCD _ (hUsub.subset hU) hD
  constructor
  · rw [resultKeys]
    refine List.Nodup.append ?_ (hUsub.nodup hc) ?_
    · refine List.Nodup.append ?_ (hDsub.nodup hs) ?_
      · exact List.Nodup.append (hAsub.nodup hc) (hMsub.nodup hc) hAM
      · rw [List.disjoint_append_left]
        exact ⟨hAD, hMD⟩
    · rw [List.disjoint_append_left, List.disjoint_append_left]
      exact ⟨⟨hAU, hMU⟩, hDU⟩
  · intro k
    rw [resultKeys]
    simp only [List.mem_append]
    constructor
    · rintro (((hA | hM) | hD) | hU)
      · obtain ⟨o, ho, hko, -⟩ := (key_mem_added_iff current saved k).mp hA
        refine Or.inl ?_
        rw [← hko]
        exact List.mem_map_of_mem objKey ho
      · obtain ⟨o, ho, hko, -⟩ := (key_mem_modified_iff current saved k).mp hM
        refine Or.inl ?_
        rw [← hko]
        exact List.mem_map_of_mem objKey ho
      · obtain ⟨s, hsm, hks, -⟩ := (key_mem_deleted_iff current saved k).mp hD
        refine Or.inr ?_
        rw [← hks]
        exact List.mem_map_of_mem objKey hsm
      · obtain ⟨o, ho, hko, -⟩ := (key_mem_unchanged_iff current saved k).mp hU
        refine Or.inl ?_
        rw [← hko]
        exact List.mem_map_of_mem objKey ho
    · intro hor
      have hfromC : ∀ o ∈ current, objKey o = k →
          (k ∈ (compareObjects current saved).added.map objKey
            ∨ k ∈ (compareObjects current saved).modified.map (fun p => objKey p.1)
            ∨ k ∈ (compareObjects current saved).unchanged.map objKey) := by
        intro o ho hko
        cases hlook : lastWithKey saved k with
        | none => exact Or.inl ((key_mem_added_iff current saved k).mpr ⟨o, ho, hko, hlook⟩)
        | some s =>
          by_cases hdef : o.definition = s.definition
          · exact Or.inr (Or.inr
              ((key_mem_unchanged_iff current saved k).mpr ⟨o, ho, hko, s, hlook, hdef⟩))
          · exact Or.inr (Or.inl
              ((key_mem_modified_iff current saved k).mpr ⟨o, ho, hko, s, hlook, hdef⟩))
      rcases hor with hC | hS
      · obtain ⟨o, ho, hko⟩ := List.mem_map.mp hC
        rcases hfromC o ho hko with h | h | h
        · exact Or.inl (Or.inl (Or.inl h))
        · exact Or.inl (Or.inl (Or.inr h))
        · exact Or.inr h
      · obtain ⟨s, hsm, hks⟩ := List.mem_map.mp hS
        cases hhas : hasKey current k with
        | false => exact Or.inl (Or.inr
            ((key_mem_deleted_iff current saved k).mpr ⟨s, hsm, hks, hhas⟩))
        | true =>
          obtain ⟨o, ho, hko⟩ := (hasKey_iff current k).mp hhas
          rcases hfromC o ho hko with h | h | h
          · exact Or.inl (Or.inl (Or.inl h))
          · exact Or.inl (Or.inl (Or.inr h))
          · exact Or.inr h

/-- Witness for the amended C2 at a concrete input. -/
theorem reconciler_partition_witness :
    (resultKeys (compareObjects [dupObj] [])).Nodup
    ∧ ∀ k, k ∈ resultKeys (compareObjects [dupObj] []) ↔
        (k ∈ [dupObj].map objKey ∨ k ∈ ([] : List DatabaseObject).map objKey) :=
  reconciler_partition [dupObj] [] (by decide) (by decide)

/-! ## The DDL synthesizer (`setMissingTableDefinitions`, sqlrunner module)

The two catalog queries are opaque row sources; their result rows are the
inputs.  One row per table column carries name, data type, max length,
precision, scale, nullability, identity flag with optional seed/increment;
one row per primary-key member carries constraint and column name.  Row
order is the order the query returned (the SQL orders by ordinal). -/

/-- One row of the column-metadata query. -/
structure ColumnRow where
  SchemaName : String
  TableName : String
  ColumnName : String
  DataType : String
  max_length : Int
  precision : Int
  scale : Int
  is_nullable : Bool
  is_identity : Bool
  seed_value : Option Int
  increment_value : Option Int
  deriving DecidableEq, Repr

/-- One row of the primary-key query. -/
structure PrimaryKeyRow where
  SchemaName : String
  TableName : String
  ConstraintName : String
  ColumnName : String
  deriving DecidableEq, Repr

/-- The grouping key `` `${row.SchemaName}.${row.TableName}` ``. -/
def tableKey (s t : String) : String := s ++ "." ++ t

/-- `pkMap`: first row of a key fixes the constraint name, every row of the
key appends its column, insertion order of keys preserved. -/
def pkMap (rows : List PrimaryKeyRow) : List (String × String × List String) :=
  rows.foldl
    (fun m r =>
      let k := tableKey r.SchemaName r.TableName
      if m.any (fun e => e.1 == k) then
        m.map (fun e => if e.1 = k then (e.1, e.2.1, e.2.2 ++ [r.ColumnName]) else e)
      else m ++ [(k, r.ConstraintName, [r.ColumnName])])
    []

/-- `tablesMap`: rows grouped by table key, row order inside a group and
insertion order of keys preserved. -/
def tablesMap (rows : List ColumnRow) : List (String × List ColumnRow) :=
  rows.foldl
    (fun m r =>
      let k := tableKey r.SchemaName r.TableName
      if m.any (fun e => e.1 == k) then
        m.map (fun e => if e.1 = k then (e.1, e.2 ++ [r]) else e)
      else m ++ [(k, [r])])
    []

/-- `Map.get` on an association list with unique keys. -/
def assocGet {α : Type} (m : List (String × α)) (k : String) : Option α :=
  (m.find? (fun e => e.1 == k)).map (fun e => e.2)

/-- JavaScript `String.prototype.split` with a one-character separator. -/
def splitOnCharList (sep : Char) : List Char → List (List Char)
  | [] => [[]]
  | c :: rest =>
    match splitOnCharList sep rest with
    | [] => [[]]
    | h :: t => if c = sep then [] :: h :: t else (c :: h) :: t

/-- `const [schema, tableName] = table.split('.')`: the first two parts of
the split (the second is `""` when missing, which cannot happen for keys
built with `tableKey`). -/
def firstTwoDotParts (s : String) : String × String :=
  match splitOnCharList '.' s.data with
  | a :: b :: _ => (String.mk a, String.mk b)
  | [a] => (String.mk a, "")
  | [] => ("", "")

/-- The types that take a `(length)` clause. -/
def varLenTypes : List String := ["varchar", "nvarchar", "char", "nchar", "binary", "varbinary"]

/-- The types that take a `(precision,scale)` clause. -/
def decimalTypes : List String := ["decimal", "numeric"]

/-- One rendered column line: bracketed name, type with optional length or
precision clause (`-1` renders as `MAX`), optional
`IDENTITY(seed,increment)` with both defaulting to 1 when the catalog
returned null, and the nullability clause. -/
def renderColumn (col : ColumnRow) : String :=
  let typeDef :=
    if varLenTypes.contains col.DataType then
      col.DataType ++ "(" ++ (if col.max_length = -1 then "MAX" else toString col.max_length) ++ ")"
    else if decimalTypes.contains col.DataType then
      col.DataType ++ "(" ++ toString col.precision ++ "," ++ toString col.scale ++ ")"
    else col.DataType
  let line := "[" ++ col.ColumnName ++ "] " ++ typeDef
  let line :=
    if col.is_identity then
      line ++ " IDENTITY(" ++ toString (col.seed_value.getD 1) ++ ","
        ++ toString (col.increment_value.getD 1) ++ ")"
    else line
  line ++ (if col.is_nullable then " NULL" else " NOT NULL")

/-- The primary-key constraint line. -/
def renderPkClause (constraintName : String) (cols : List String) : String :=
  "CONSTRAINT [" ++ constraintName ++ "] PRIMARY KEY ("
    ++ String.intercalate ", " (cols.map (fun c => "[" ++ c ++ "]")) ++ ")"

/-- The full `CREATE TABLE` statement for one `tablesMap` entry: column
lines, then the constraint line when a primary-key group exists, joined
with `,\n  ` inside the header and footer; schema and table name are read
back out of the group key by `split('.')`. -/
def buildCreateStatement (key : String) (columns : List ColumnRow)
    (pk : Option (String × List String)) : String :=
  let colDefs := columns.map renderColumn
  let colDefs :=
    match pk with
    | some (cname, pkcols) => colDefs ++ [renderPkClause cname pkcols]
    | none => colDefs
  let sp := firstTwoDotParts key
  "CREATE TABLE [" ++ sp.1 ++ "].[" ++ sp.2 ++ "] (\n  "
    ++ String.intercalate ",\n  " colDefs ++ "\n);"

/-- `objectList.find(...)` followed by the in-place `definition` write: the
first object whose schema, name and `type === 'tables'` match is replaced
by a copy with the new definition; everything else is untouched. -/
def updateFirstTable (schema tableName defn : String) :
    List DatabaseObject → List DatabaseObject
  | [] => []
  | o :: rest =>
    if o.schema = schema ∧ o.name = tableName ∧ o.type = "tables" then
      { o with definition := defn } :: rest
    else o :: updateFirstTable schema tableName defn rest

/-- `setMissingTableDefinitions`: for each `tablesMap` group in insertion
order, build the statement and back-fill the first matching table object of
the (already partially updated) list. -/
def setMissingTableDefinitions (colRows : List ColumnRow) (pkRows : List PrimaryKeyRow)
    (objectList : List DatabaseObject) : List DatabaseObject :=
  (tablesMap colRows).foldl
    (fun objs entry =>
      let stmt := buildCreateStatement entry.1 entry.2 (assocGet (pkMap pkRows) entry.1)
      let sp := firstTwoDotParts entry.1
      updateFirstTable sp.1 sp.2 stmt objs)
    objectList

/-- One row of the object-listing query of `RetrieveDatabaseObjects`
(schema, name, normalized kind tag, stored module text). -/
structure CatalogRow where
  SchemaName : String
  ObjectName : String
  ObjectType : String
  ObjectDefinition : String
  deriving DecidableEq, Repr

/-- The row-to-object mapping of `RetrieveDatabaseObjects`. -/
def catalogRowToObject (r : CatalogRow) : DatabaseObject :=
  ⟨r.SchemaName, r.ObjectName, r.ObjectType, r.ObjectDefinition⟩

/-- `RetrieveDatabaseObjects` after the query returned `rows`: map each row
to a `DatabaseObject`, then back-fill table definitions from the column and
primary-key metadata rows. -/
def retrieveDatabaseObjects (rows : List CatalogRow) (colRows : List ColumnRow)
    (pkRows : List PrimaryKeyRow) : List DatabaseObject :=
  setMissingTableDefinitions colRows pkRows (rows.map catalogRowToObject)

/-! ### C4: the concrete two-column table -/

/-- The identity column `Id` of the C4 scenario. -/
def idRow : ColumnRow :=
  { SchemaName := "dbo", TableName := "T", ColumnName := "Id", DataType := "int"
    max_length := 4, precision := 10, scale := 0, is_nullable := false
    is_identity := true, seed_value := some 1, increment_value := some 1 }

/-- The nullable `varchar(MAX)` column `Name` of the C4 scenario. -/
def nameRow : ColumnRow :=
  { SchemaName := "dbo", TableName := "T", ColumnName := "Name", DataType := "varchar"
    max_length := -1, precision := 0, scale := 0, is_nullable := true
    is_identity := false, seed_value := none, increment_value := none }

/-- The primary-key row `PK_T` on `Id`. -/
def pkRowT : PrimaryKeyRow :=
  { SchemaName := "dbo", TableName := "T", ConstraintName := "PK_T", ColumnName := "Id" }

/-- The table object before synthesis (tables carry no stored module
text). -/
def tObj : DatabaseObject := ⟨"dbo", "T", "tables", ""⟩

/-- C4: on the metadata of one table `dbo.T` with an `int IDENTITY(1,1) NOT
NULL` column `Id`, a nullable `varchar` column `Name` with max-length
sentinel -1, and primary key `PK_T` on `Id`, the synthesizer produces
byte-identically the text the spec displays. -/
theorem synthesizer_concrete_scenario :
    setMissingTableDefinitions [idRow, nameRow] [pkRowT] [tObj]
      = [⟨"dbo", "T", "tables",
          "CREATE TABLE [dbo].[T] (\n  [Id] int IDENTITY(1,1) NOT NULL,\n  [Name] varchar(MAX) NULL,\n  CONSTRAINT [PK_T] PRIMARY KEY ([Id])\n);"⟩] := by
  decide

/-! ### C5: shape of every rendered column line -/

/-- C5: every rendered column line has a parenthesized length clause for
variable-length character/binary types with `-1` rendering as `MAX`, a
`(precision,scale)` clause for decimal/numeric, an
`IDENTITY(seed,increment)` clause with absent seed or increment defaulting
to 1, and a trailing nullability clause chosen by the flag. -/
theorem column_line_shape (col : ColumnRow) :
    (col.DataType ∈ varLenTypes →
      ∃ rest, renderColumn col
        = "[" ++ col.ColumnName ++ "] " ++ col.DataType ++ "("
          ++ (if col.max_length = -1 then "MAX" else toString col.max_length) ++ ")" ++ rest)
    ∧ (col.DataType ∈ decimalTypes →
      ∃ rest, renderColumn col
        = "[" ++ col.ColumnName ++ "] " ++ col.DataType ++ "("
          ++ toString col.precision ++ "," ++ toString col.scale ++ ")" ++ rest)
    ∧ (col.is_identity = true →
      ∃ pre, renderColumn col
        = pre ++ " IDENTITY(" ++ toString (col.seed_value.getD 1) ++ ","
            ++ toString (col.increment_value.getD 1) ++ ")"
          ++ (if col.is_nullable then " NULL" else " NOT NULL"))
    ∧ (∃ pre, renderColumn col
        = pre ++ (if col.is_nullable then " NULL" else " NOT NULL")) := by
  refine ⟨?_, ?_, ?_, ?_⟩
  · intro hvar
    have hvarB : varLenTypes.contains col.DataType = true := by simpa using hvar
    rw [renderColumn, if_pos hvarB]
    by_cases hid : col.is_identity = true
    · rw [if_pos hid]
      refine ⟨" IDENTITY(" ++ toString (col.seed_value.getD 1) ++ ","
        ++ toString (col.increment_value.getD 1) ++ ")"
        ++ (if col.is_nullable then " NULL" else " NOT NULL"), ?_⟩
      simp only [String.append_assoc]
    · rw [if_neg hid]
      refine ⟨(if col.is_nullable then " NULL" else " NOT NULL"), ?_⟩
      simp only [String.append_assoc]
  · intro hdec
    have hnotvar : ¬ varLenTypes.contains col.DataType = true := by
      intro hcont
      have hmem : col.DataType ∈ varLenTypes := by simpa using hcont
      have hd : col.DataType = "decimal" ∨ col.DataType = "numeric" := by
        simpa [decimalTypes] using hdec
      rcases hd with h | h <;> rw [h] at hmem <;> revert hmem <;> decide
    have hdecB : decimalTypes.contains col.DataType = true := by simpa using hdec
    rw [renderColumn, if_neg hnotvar, if_pos hdecB]
    by_cases hid : col.is_identity = true
    · rw [if_pos hid]
      refine ⟨" IDENTITY(" ++ toString (col.seed_value.getD 1) ++ ","
        ++ toString (col.increment_value.getD 1) ++ ")"
        ++ (if col.is_nullable then " NULL" else " NOT NULL"), ?_⟩
      simp only [String.append_assoc]
    · rw [if_neg hid]
      refine ⟨(if col.is_nullable then " NULL" else " NOT NULL"), ?_⟩
      simp only [String.append_assoc]
  · intro hid
    rw [renderColumn, if_pos hid]
    exact ⟨_, rfl⟩
  · rw [renderColumn]
    by_cases hid : col.is_identity = true
    · rw [if_pos hid]
      exact ⟨_, rfl⟩
    · rw [if_neg hid]
      exact ⟨_, rfl⟩

/-- Witness for C5 at a concrete identity `varchar(MAX)` column. -/
def wsCol : ColumnRow :=
  { SchemaName := "dbo", TableName := "W", ColumnName := "C", DataType := "varchar"
    max_length := -1, precision := 0, scale := 0, is_nullable := false
    is_identity := true, seed_value := none, increment_value := some 5 }

theorem column_line_shape_witness :
    (∃ rest, renderColumn wsCol
      = "[" ++ wsCol.ColumnName ++ "] " ++ wsCol.DataType ++ "("
        ++ (if wsCol.max_length = -1 then "MAX" else toString wsCol.max_length) ++ ")" ++ rest)
    ∧ (∃ pre, renderColumn wsCol
        = pre ++ " IDENTITY(" ++ toString (wsCol.seed_value.getD 1) ++ ","
            ++ toString (wsCol.increment_value.getD 1) ++ ")"
          ++ (if wsCol.is_nullable then " NULL" else " NOT NULL")) :=
  ⟨(column_line_shape wsCol).1 (by decide),
   (column_line_shape wsCol).2.2.1 (by decide)⟩

/-! ### C7 / C8: what synthesis touches -/

/-- A string free of the grouping separator `'.'`. -/
def noDot (s : String) : Bool := !s.data.any (fun c => c = '.')

theorem splitOnCharList_of_not_mem (sep : Char) (l : List Char) (h : sep ∉ l) :
    splitOnCharList sep l = [l] := by
  induction l with
  | nil => rfl
  | cons c rest ih =>
    rw [splitOnCharList]
    have hc : c ≠ sep := fun hcs => h (hcs ▸ List.mem_cons_self c rest)
    have hrest : sep ∉ rest := fun hm => h (List.mem_cons_of_mem c hm)
    rw [ih hrest]
    simp [hc]

theorem splitOnCharList_append (sep : Char) (a b : List Char) (ha : sep ∉ a) :
    splitOnCharList sep (a ++ sep :: b) = a :: splitOnCharList sep b := by
  induction a with
  | nil =>
    simp only [List.nil_append]
    rw [splitOnCharList]
    cases hb : splitOnCharList sep b with
    | nil =>
      exfalso
      induction b with
      | nil => rw [splitOnCharList] at hb; exact List.noConfusion hb
      | cons x xs ihb =>
        rw [splitOnCharList] at hb
        revert hb
        cases splitOnCharList sep xs with
        | nil => intro hb; exact List.noConfusion hb
        | cons h t =>
          intro hb
          by_cases hx : x = sep <;> simp [hx] at hb
    | cons h t => simp
  | cons c rest ih =>
    have hc : c ≠ sep := fun hcs => ha (hcs ▸ List.mem_cons_self c rest)
    have hrest : sep ∉ rest := fun hm => ha (List.mem_cons_of_mem c hm)
    simp only [List.cons_append]
    rw [splitOnCharList, ih hrest]
    simp [hc]

theorem noDot_not_mem (s : String) (h : noDot s = true) : '.' ∉ s.data := by
  intro hm
  rw [noDot] at h
  simp only [Bool.not_eq_true', List.any_eq_false] at h
  exact absurd rfl (h '.' hm)

theorem firstTwoDotParts_tableKey (s t : String)
    (hs : noDot s = true) (ht : noDot t = true) :
    firstTwoDotParts (tableKey s t) = (s, t) := by
  have hdata : (tableKey s t).data = s.data ++ '.' :: t.data := by
    rw [tableKey, String.data_append, String.data_append]
    simp [List.append_assoc]
  rw [firstTwoDotParts, hdata,
    splitOnCharList_append '.' s.data t.data (noDot_not_mem s hs),
    splitOnCharList_of_not_mem '.' t.data (noDot_not_mem t ht)]

theorem updateFirstTable_forall₂ {R : DatabaseObject → DatabaseObject → Prop}
    (s t d : String)
    (htol : ∀ a b, R a b → b.schema = s → b.name = t → b.type = "tables" →
      R a { b with definition := d }) :
    ∀ {l₁ l₂ : List DatabaseObject}, List.Forall₂ R l₁ l₂ →
      List.Forall₂ R l₁ (updateFirstTable s t d l₂) := by
  intro l₁ l₂ h
  induction h with
  | nil => exact List.Forall₂.nil
  | cons hab hrest ih =>
    rename_i a b lrest₁ lrest₂
    rw [updateFirstTable]
    by_cases hcond : b.schema = s ∧ b.name = t ∧ b.type = "tables"
    · rw [if_pos hcond]
      exact List.Forall₂.cons (htol a b hab hcond.1 hcond.2.1 hcond.2.2) hrest
    · rw [if_neg hcond]
      exact List.Forall₂.cons hab ih

theorem foldUpdate_forall₂ {R : DatabaseObject → DatabaseObject → Prop}
    (entries : List (String × List ColumnRow))
    (step : String × List ColumnRow → String)
    (htol : ∀ e ∈ entries, ∀ a b, R a b →
      b.schema = (firstTwoDotParts e.1).1 → b.name = (firstTwoDotParts e.1).2 →
      b.type = "tables" → R a { b with definition := step e }) :
    ∀ {l₁ l₂ : List DatabaseObject}, List.Forall₂ R l₁ l₂ →
      List.Forall₂ R l₁
        (entries.foldl
          (fun objs e => updateFirstTable (firstTwoDotParts e.1).1 (firstTwoDotParts e.1).2
            (step e) objs) l₂) := by
  induction entries with
  | nil => intro l₁ l₂ h; exact h
  | cons e rest ih =>
    intro l₁ l₂ h
    rw [List.foldl_cons]
    refine ih (fun e' he' => htol e' (List.mem_cons_of_mem e he')) ?_
    exact updateFirstTable_forall₂ _ _ _ (htol e (List.mem_cons_self e rest)) h

theorem tablesMap_keys_from_rows (rows : List ColumnRow) :
    ∀ e ∈ tablesMap rows, ∃ r ∈ rows, e.1 = tableKey r.SchemaName r.TableName := by
  have haux : ∀ (rows : List ColumnRow) (m : List (String × List ColumnRow)),
      ∀ e ∈ rows.foldl
        (fun m r =>
          let k := tableKey r.SchemaName r.TableName
          if m.any (fun e => e.1 == k) then
            m.map (fun e => if e.1 = k then (e.1, e.2 ++ [r]) else e)
          else m ++ [(k, [r])]) m,
        e.1 ∈ m.map Prod.fst ∨ ∃ r ∈ rows, e.1 = tableKey r.SchemaName r.TableName := by
    intro rows
    induction rows with
    | nil => intro m e he; exact Or.inl (List.mem_map_of_mem Prod.fst he)
    | cons r rest ih =>
      intro m e he
      rw [List.foldl_cons] at he
      rcases ih _ e he with hm | ⟨r', hr', hk⟩
      · by_cases hany : m.any (fun e => e.1 == tableKey r.SchemaName r.TableName) = true
        · rw [if_pos hany] at hm
          simp only [List.map_map, List.mem_map] at hm
          obtain ⟨e', he', hfst⟩ := hm
          by_cases he'' : e'.1 = tableKey r.SchemaName r.TableName
          · simp only [Function.comp, if_pos he''] at hfst
            exact Or.inr ⟨r, List.mem_cons_self r rest, by rw [← hfst]; exact he''⟩
          · simp only [Function.comp, if_neg he''] at hfst
            exact Or.inl (hfst ▸ List.mem_map_of_mem Prod.fst he')
        · rw [if_neg hany] at hm
          simp only [List.map_append, List.mem_append] at hm
          rcases hm with hm | hm
          · exact Or.inl hm
          · simp only [List.map_cons, List.map_nil, List.mem_singleton] at hm
            exact Or.inr ⟨r, List.mem_cons_self r rest, hm⟩
      · exact Or.inr ⟨r', List.mem_cons_of_mem r hr', hk⟩
  intro e he
  rcases haux rows [] e he with hm | h
  · simp at hm
  · exact h

theorem setMissing_frame (colRows : List ColumnRow) (pkRows : List PrimaryKeyRow)
    (objs : List DatabaseObject) :
    List.Forall₂ (fun a b => (b.schema = a.schema ∧ b.name = a.name ∧ b.type = a.type)
        ∧ (a.type ≠ "tables" → b = a))
      objs (setMissingTableDefinitions colRows pkRows objs) := by
  rw [setMissingTableDefinitions]
  refine foldUpdate_forall₂ (tablesMap colRows)
    (fun e => buildCreateStatement e.1 e.2 (assocGet (pkMap pkRows) e.1)) ?_ ?_
  · rintro e he a b ⟨⟨h1, h2, h3⟩, h4⟩ hs hn ht
    refine ⟨⟨h1, h2, h3⟩, ?_⟩
    intro hat
    exfalso
    apply hat
    rw [← h3]
    exact ht
  · exact List.forall₂_same.mpr fun a _ => ⟨⟨rfl, rfl, rfl⟩, fun _ => rfl⟩

theorem setMissing_untouched (colRows : List ColumnRow) (pkRows : List PrimaryKeyRow)
    (objs : List DatabaseObject)
    (hdot : ∀ r ∈ colRows, noDot r.SchemaName = true ∧ noDot r.TableName = true) :
    List.Forall₂ (fun a b =>
        (∀ r ∈ colRows, ¬(r.SchemaName = a.schema ∧ r.TableName = a.name)) → b = a)
      objs (setMissingTableDefinitions colRows pkRows objs) := by
  rw [setMissingTableDefinitions]
  refine foldUpdate_forall₂ (tablesMap colRows)
    (fun e => buildCreateStatement e.1 e.2 (assocGet (pkMap pkRows) e.1)) ?_ ?_
  · rintro e he a b hR hs hn ht hnr
    have hba : b = a := hR hnr
    subst hba
    obtain ⟨r, hr, hk⟩ := tablesMap_keys_from_rows colRows e he
    obtain ⟨hds, hdt⟩ := hdot r hr
    have hsp : firstTwoDotParts e.1 = (r.SchemaName, r.TableName) := by
      rw [hk]
      exact firstTwoDotParts_tableKey _ _ hds hdt
    rw [hsp] at hs hn
    exact absurd ⟨hs.symm, hn.symm⟩ (hnr r hr)
  · exact List.forall₂_same.mpr fun a _ => fun _ => rfl

theorem forall₂_keyTriple {l₁ l₂ : List DatabaseObject}
    (h : List.Forall₂ (fun a b => (b.schema = a.schema ∧ b.name = a.name ∧ b.type = a.type)
        ∧ (a.type ≠ "tables" → b = a)) l₁ l₂) :
    l₂.map keyTriple = l₁.map keyTriple := by
  induction h with
  | nil => rfl
  | cons hab hrest ih =>
    rename_i a b lrest₁ lrest₂
    simp only [List.map_cons, ih, keyTriple, hab.1.1, hab.1.2.1, hab.1.2.2]

theorem forall₂_getElem? {R : DatabaseObject → DatabaseObject → Prop}
    {l₁ l₂ : List DatabaseObject} (h : List.Forall₂ R l₁ l₂) :
    ∀ (i : Nat) (a : DatabaseObject), l₁[i]? = some a →
      ∃ b, l₂[i]? = some b ∧ R a b := by
  induction h with
  | nil => intro i a ha; simp at ha
  | cons hab hrest ih =>
    rename_i x y lrest₁ lrest₂
    intro i a ha
    cases i with
    | zero =>
      obtain rfl : x = a := by simpa using ha
      exact ⟨y, by simp, hab⟩
    | succ j =>
      simp only [List.getElem?_cons_succ] at ha ⊢
      exact ih j a ha

/-- Column row whose schema name contains a dot, for the C7 counterexample. -/
def dotRow : ColumnRow :=
  { SchemaName := "a.b", TableName := "c", ColumnName := "X", DataType := "int"
    max_length := 4, precision := 10, scale := 0, is_nullable := false
    is_identity := false, seed_value := none, increment_value := none }

/-- Table object matching no metadata group, yet overwritten because the
group key `a.b.c` splits back into `(a, b)`. -/
def dotObj : DatabaseObject := ⟨"a", "b", "tables", "orig"⟩

/-- C7 counterexample: with one metadata row for schema `a.b`, table `c`,
the object `(a, b, tables)` matches no synthesized table group's
`(SchemaName, TableName)`, yet `setMissingTableDefinitions` overwrites its
definition, because the group key is split at every `'.'` and only the
first two parts are kept. -/
theorem synth_frame_counterexample :
    (∀ r ∈ [dotRow], ¬(r.SchemaName = dotObj.schema ∧ r.TableName = dotObj.name))
    ∧ setMissingTableDefinitions [dotRow] [] [dotObj] ≠ [dotObj] := by
  decide

theorem forall₂_conj {α β : Type} {R S : α → β → Prop} :
    ∀ {l₁ : List α} {l₂ : List β}, List.Forall₂ R l₁ l₂ → List.Forall₂ S l₁ l₂ →
      List.Forall₂ (fun a b => R a b ∧ S a b) l₁ l₂ := by
  intro l₁ l₂ h1
  induction h1 with
  | nil => intro h2; exact List.Forall₂.nil
  | cons hab hrest ih =>
    intro h2
    cases h2 with
    | cons hab₂ hrest₂ => exact List.Forall₂.cons ⟨hab, hab₂⟩ (ih hrest₂)

/-- C7 amended: when no metadata schema or table name contains `'.'`,
synthesis only back-fills: each output object keeps the input's schema,
name and type; an object whose kind is not `tables` is returned entirely
unchanged, as is an object whose `(schema, name)` matches no metadata
row. -/
theorem synth_frame_amended (colRows : List ColumnRow) (pkRows : List PrimaryKeyRow)
    (objs : List DatabaseObject)
    (hdot : ∀ r ∈ colRows, noDot r.SchemaName = true ∧ noDot r.TableName = true) :
    List.Forall₂ (fun a b => (b.schema = a.schema ∧ b.name = a.name ∧ b.type = a.type)
        ∧ (a.type ≠ "tables" → b = a)
        ∧ ((∀ r ∈ colRows, ¬(r.SchemaName = a.schema ∧ r.TableName = a.name)) → b = a))
      objs (setMissingTableDefinitions colRows pkRows objs) := by
  have h1 := setMissing_frame colRows pkRows objs
  have h2 := setMissing_untouched colRows pkRows objs hdot
  exact (forall₂_conj h1 h2).imp fun a b h => ⟨h.1.1, h.1.2, h.2⟩

/-- Witness for the amended C7 at the concrete C4 metadata: a view object
and a non-matching table object are returned unchanged. -/
theorem synth_frame_amended_witness :
    List.Forall₂ (fun a b => (b.schema = a.schema ∧ b.name = a.name ∧ b.type = a.type)
        ∧ (a.type ≠ "tables" → b = a)
        ∧ ((∀ r ∈ [idRow, nameRow], ¬(r.SchemaName = a.schema ∧ r.TableName = a.name)) → b = a))
      [tObj] (setMissingTableDefinitions [idRow, nameRow] [pkRowT] [tObj]) :=
  synth_frame_amended [idRow, nameRow] [pkRowT] [tObj] (by decide)

/-- Column row for the C8 counterexample, schema name `p.q`. -/
def dotRow8 : ColumnRow :=
  { SchemaName := "p.q", TableName := "r", ColumnName := "Y", DataType := "bigint"
    max_length := 8, precision := 19, scale := 0, is_nullable := true
    is_identity := false, seed_value := none, increment_value := none }

/-- Table object for the C8 counterexample: no metadata row carries its
`(schema, name)`. -/
def keepObj : DatabaseObject := ⟨"p", "q", "tables", "keep"⟩

/-- C8 counterexample: the table object `(p, q, tables)` has no
column-metadata rows of its own, yet its definition is not left at its
pre-existing value: the group of the dotted schema `p.q`, table `r`
back-fills it. -/
theorem synth_no_metadata_counterexample :
    (∀ r ∈ [dotRow8], ¬(r.SchemaName = keepObj.schema ∧ r.TableName = keepObj.name))
    ∧ (setMissingTableDefinitions [dotRow8] [] [keepObj]).map (fun o => o.definition)
        ≠ ["keep"] := by
  decide

/-- C8 amended: when no metadata schema or table name contains `'.'`, a
table object with no matching column-metadata rows does not fail the
batch: the whole synthesis returns a list of the same length and that
object is returned unchanged, definition included. -/
theorem synth_no_metadata (colRows : List ColumnRow) (pkRows : List PrimaryKeyRow)
    (objs : List DatabaseObject) (i : Nat) (o : DatabaseObject)
    (hdot : ∀ r ∈ colRows, noDot r.SchemaName = true ∧ noDot r.TableName = true)
    (hio : objs[i]? = some o)
    (htab : o.type = "tables")
    (hnone : ∀ r ∈ colRows, ¬(r.SchemaName = o.schema ∧ r.TableName = o.name)) :
    (setMissingTableDefinitions colRows pkRows objs).length = objs.length
    ∧ (setMissingTableDefinitions colRows pkRows objs)[i]? = some o := by
  have h := setMissing_untouched colRows pkRows objs hdot
  refine ⟨h.length_eq.symm, ?_⟩
  obtain ⟨b, hb, hR⟩ := forall₂_getElem? h i o hio
  rw [hb, hR hnone]

/-- Witness for the amended C8: a table object the C4 metadata does not
mention is returned unchanged. -/
theorem synth_no_metadata_witness :
    (setMissingTableDefinitions [idRow, nameRow] [pkRowT]
        [⟨"dbo", "Other", "tables", "x"⟩]).length = 1
    ∧ (setMissingTableDefinitions [idRow, nameRow] [pkRowT]
        [⟨"dbo", "Other", "tables", "x"⟩])[0]? = some ⟨"dbo", "Other", "tables", "x"⟩ :=
  synth_no_metadata [idRow, nameRow] [pkRowT] [⟨"dbo", "Other", "tables", "x"⟩] 0
    ⟨"dbo", "Other", "tables", "x"⟩ (by decide) (by decide) (by decide) (by decide)


/-! ## The snapshot store

`_syncToGit` clears `<repo>/DatabaseState` and writes one file per object
at `DatabaseState/schemas/<schema>/<type>/<name>.sql` whose content is the
definition; `_getSavedDatabaseObjects` walks that directory recursively,
deriving schema and type from directory levels and the object name from
the file name with `item.replace('.sql', '')`, which removes only the
first occurrence.  A directory is a sequence of named entries in creation
order (the mutual inductive keeps the walk structurally recursive); the
file system maps directory paths to such trees. -/

mutual
/-- A file-system entry: a file with text content, or a directory. -/
inductive FsEntry where
  | file (content : String)
  | dir (entries : FsDir)
/-- A directory: named entries in order. -/
inductive FsDir where
  | nil
  | cons (name : String) (entry : FsEntry) (rest : FsDir)
end

/-- JavaScript `String.prototype.replace` with a plain-string pattern:
remove only the first occurrence. -/
def replaceFirstList (pat : List Char) : List Char → List Char
  | [] => []
  | c :: rest =>
    if pat.isPrefixOf (c :: rest) then (c :: rest).drop pat.length
    else c :: replaceFirstList pat rest

/-- The `.sql` extension. -/
def sqlExt : String := ".sql"

/-- `item.replace('.sql', '')`. -/
def stripSqlOnce (s : String) : String := String.mk (replaceFirstList sqlExt.data s.data)

/-- `item.endsWith('.sql')`. -/
def endsWithSql (s : String) : Bool := sqlExt.data.isSuffixOf s.data

/-- The recursive walk of `_getSavedDatabaseObjects` (lines 614-644): a
directory met while `schema` is still empty and not named `schemas`
becomes the schema, the next directory level the type, and every `.sql`
file yields one object named by the file name with its first `.sql`
removed. -/
def readDirectory : FsDir → String → String → List DatabaseObject
  | FsDir.nil, _, _ => []
  | FsDir.cons item (FsEntry.dir es) rest, schema, ty =>
    (if schema = "" ∧ item ∉ ["schemas"] then readDirectory es item ty
     else if schema ≠ "" ∧ ty = "" then readDirectory es schema item
     else readDirectory es schema ty)
      ++ readDirectory rest schema ty
  | FsDir.cons item (FsEntry.file content) rest, schema, ty =>
    (if endsWithSql item then [⟨schema, stripSqlOnce item, ty, content⟩] else [])
      ++ readDirectory rest schema ty

/-- Whether the directory has an entry of the name. -/
def anyName : FsDir → String → Bool
  | FsDir.nil, _ => false
  | FsDir.cons nm _ rest, k => (nm == k) || anyName rest k

/-- Replace the entry value at every entry of the given name. -/
def replaceByName (f : FsEntry → FsEntry) : FsDir → String → FsDir
  | FsDir.nil, _ => FsDir.nil
  | FsDir.cons nm e rest, k =>
    if nm = k then FsDir.cons nm (f e) (replaceByName f rest k)
    else FsDir.cons nm e (replaceByName f rest k)

/-- Append one entry at the end of the directory. -/
def snocDir : FsDir → String → FsEntry → FsDir
  | FsDir.nil, nm, e => FsDir.cons nm e FsDir.nil
  | FsDir.cons n x rest, nm, e => FsDir.cons n x (snocDir rest nm e)

/-- The entries of a directory entry (a file has none). -/
def childEntries : FsEntry → FsDir
  | FsEntry.dir es => es
  | FsEntry.file _ => FsDir.nil

/-- `mkdirSync(recursive)` plus `writeFileSync` along one path: descend
through existing directories, create missing ones, and write the file at
the final segment (overwriting an existing entry of that name).  A file
met where a directory is needed cannot happen for the snapshot writer's
fixed-depth paths and is replaced by a fresh directory. -/
def insertPath : FsDir → List String → String → FsDir
  | es, [], _ => es
  | es, [leaf], v =>
    if anyName es leaf then replaceByName (fun _ => FsEntry.file v) es leaf
    else snocDir es leaf (FsEntry.file v)
  | es, d :: seg :: rest, v =>
    if anyName es d then
      replaceByName (fun e => FsEntry.dir (insertPath (childEntries e) (seg :: rest) v)) es d
    else snocDir es d (FsEntry.dir (insertPath FsDir.nil (seg :: rest) v))

/-- The path `_syncToGit` writes an object to, relative to
`DatabaseState`: `schemas/<schema>/<type>/<name>.sql`. -/
def snapshotPath (o : DatabaseObject) : List String :=
  ["schemas", o.schema, o.type, o.name ++ sqlExt]

/-- The write step of `_syncToGit` after clearing the old tree: one file
per object, in list order. -/
def writeSnapshotTree (objs : List DatabaseObject) : FsDir :=
  objs.foldl (fun t o => insertPath t (snapshotPath o) o.definition) FsDir.nil

/-- The file system as seen by `_getSavedDatabaseObjects`: directory path
to directory tree. -/
abbrev FileSystem : Type := List (String × FsDir)

/-- `_getSavedDatabaseObjects` (lines 606-648): an absent
`<repo>/DatabaseState` directory yields the empty list, otherwise the
walk starts with empty schema and type. -/
def getSavedDatabaseObjects (fs : FileSystem) (repoDir : String) : List DatabaseObject :=
  match (List.find? (fun e => e.1 == repoDir ++ "/DatabaseState") fs).map (fun e => e.2) with
  | none => []
  | some entries => readDirectory entries "" ""

/-- The file system `_syncToGit` leaves behind: the fresh `DatabaseState`
tree and nothing else. -/
def syncToGitFileSystem (repoDir : String) (objs : List DatabaseObject) : FileSystem :=
  [(repoDir ++ "/DatabaseState", writeSnapshotTree objs)]

/-! ### C9: a missing snapshot directory -/

/-- C9: when the `DatabaseState` directory does not exist on the file
system, `_getSavedDatabaseObjects` returns the empty object list (and, the
function being total, raises nothing). -/
theorem missing_state_dir_empty (fs : FileSystem) (repoDir : String)
    (h : ∀ e ∈ fs, e.1 ≠ repoDir ++ "/DatabaseState") :
    getSavedDatabaseObjects fs repoDir = [] := by
  rw [getSavedDatabaseObjects]
  have hfind : List.find? (fun e => e.1 == repoDir ++ "/DatabaseState") fs = none := by
    rw [List.find?_eq_none]
    intro e he
    simpa using h e he
  rw [hfind]
  rfl

/-- Witness for C9 on a file system holding an unrelated directory. -/
theorem missing_state_dir_empty_witness :
    getSavedDatabaseObjects [("/repo/other", FsDir.nil)] "/repo" = [] :=
  missing_state_dir_empty [("/repo/other", FsDir.nil)] "/repo" (by decide)

/-! ### C3: round trip of the snapshot store -/

/-- Object whose name contains `.sql` in the middle: the read-back strips
the first occurrence, not the suffix. -/
def badNameObj : DatabaseObject := ⟨"dbo", "a.sqlb", "tables", "X"⟩

/-- C3 counterexample: writing the single object `dbo.a.sqlb.tables` and
reading the snapshot back yields the name `ab.sql` (the first `.sql` of
the file name `a.sqlb.sql` is removed), so the read set does not equal the
written set by identity key. -/
theorem snapshot_roundtrip_counterexample :
    getSavedDatabaseObjects (syncToGitFileSystem "/repo" [badNameObj]) "/repo"
      = [⟨"dbo", "ab.sql", "tables", "X"⟩]
    ∧ badNameObj ∉ getSavedDatabaseObjects (syncToGitFileSystem "/repo" [badNameObj]) "/repo" := by
  decide

/-! ### Directory structure lemmas -/

/-- The entries of a directory as a list. -/
def dirToList : FsDir → List (String × FsEntry)
  | FsDir.nil => []
  | FsDir.cons nm e rest => (nm, e) :: dirToList rest

/-- The entry names of a directory in order. -/
def dirNames : FsDir → List String
  | FsDir.nil => []
  | FsDir.cons nm _ rest => nm :: dirNames rest

/-- Concatenation of directories. -/
def appendDir : FsDir → FsDir → FsDir
  | FsDir.nil, b => b
  | FsDir.cons nm e rest, b => FsDir.cons nm e (appendDir rest b)

/-- Every file of the tree with its path and content, in walk order. -/
def treeFiles : FsDir → List (List String × String)
  | FsDir.nil => []
  | FsDir.cons nm (FsEntry.file c) rest => ([nm], c) :: treeFiles rest
  | FsDir.cons nm (FsEntry.dir es) rest =>
    (treeFiles es).map (fun pc => (nm :: pc.1, pc.2)) ++ treeFiles rest

/-- The files contributed by one named entry. -/
def entryFiles (nm : String) : FsEntry → List (List String × String)
  | FsEntry.file c => [([nm], c)]
  | FsEntry.dir es => (treeFiles es).map (fun pc => (nm :: pc.1, pc.2))

/-- Structural induction over a directory (the mutual recursor is not
usable by the `induction` tactic directly). -/
theorem FsDir.induct {motive : FsDir → Prop} (nil : motive FsDir.nil)
    (cons : ∀ nm e rest, motive rest → motive (FsDir.cons nm e rest)) : ∀ d, motive d
  | FsDir.nil => nil
  | FsDir.cons nm e rest => cons nm e rest (FsDir.induct nil cons rest)

theorem treeFiles_cons (nm : String) (e : FsEntry) (rest : FsDir) :
    treeFiles (FsDir.cons nm e rest) = entryFiles nm e ++ treeFiles rest := by
  cases e <;> rfl

theorem treeFiles_appendDir (a b : FsDir) :
    treeFiles (appendDir a b) = treeFiles a ++ treeFiles b := by
  induction a using FsDir.induct with
  | nil => rfl
  | cons nm e rest ih =>
    rw [appendDir, treeFiles_cons, treeFiles_cons, ih, List.append_assoc]

theorem dirNames_appendDir (a b : FsDir) :
    dirNames (appendDir a b) = dirNames a ++ dirNames b := by
  induction a using FsDir.induct with
  | nil => rfl
  | cons nm e rest ih => rw [appendDir, dirNames, dirNames, ih, List.cons_append]

theorem dirToList_appendDir (a b : FsDir) :
    dirToList (appendDir a b) = dirToList a ++ dirToList b := by
  induction a using FsDir.induct with
  | nil => rfl
  | cons nm e rest ih => rw [appendDir, dirToList, dirToList, ih, List.cons_append]

theorem snocDir_eq_appendDir (es : FsDir) (nm : String) (e : FsEntry) :
    snocDir es nm e = appendDir es (FsDir.cons nm e FsDir.nil) := by
  induction es using FsDir.induct with
  | nil => rfl
  | cons n x rest ih => rw [snocDir, appendDir, ih]

theorem anyName_iff (es : FsDir) (k : String) :
    anyName es k = true ↔ k ∈ dirNames es := by
  induction es using FsDir.induct with
  | nil => simp [anyName, dirNames]
  | cons nm e rest ih =>
    rw [anyName, dirNames]
    simp only [Bool.or_eq_true, beq_iff_eq, List.mem_cons, ih]
    tauto

theorem replaceByName_of_not_mem (f : FsEntry → FsEntry) (es : FsDir) (k : String)
    (h : k ∉ dirNames es) : replaceByName f es k = es := by
  induction es using FsDir.induct with
  | nil => rfl
  | cons nm e rest ih =>
    rw [dirNames] at h
    have hne : ¬ nm = k := fun hk => h (by rw [← hk] at *; exact List.mem_cons_self nm (dirNames rest))
    rw [replaceByName, if_neg hne, ih (fun hm => h (List.mem_cons_of_mem nm hm))]

theorem replaceByName_appendDir (f : FsEntry → FsEntry) (a b : FsDir) (k : String) :
    replaceByName f (appendDir a b) k
      = appendDir (replaceByName f a k) (replaceByName f b k) := by
  induction a using FsDir.induct with
  | nil => rfl
  | cons nm e rest ih =>
    rw [appendDir, replaceByName, replaceByName]
    by_cases hk : nm = k
    · rw [if_pos hk, if_pos hk, appendDir, ih]
    · rw [if_neg hk, if_neg hk, appendDir, ih]

theorem dirNames_replaceByName (f : FsEntry → FsEntry) (es : FsDir) (k : String) :
    dirNames (replaceByName f es k) = dirNames es := by
  induction es using FsDir.induct with
  | nil => rfl
  | cons nm e rest ih =>
    rw [replaceByName]
    by_cases hk : nm = k
    · rw [if_pos hk, dirNames, dirNames, ih]
    · rw [if_neg hk, dirNames, dirNames, ih]

theorem dir_decomp (es : FsDir) (k : String) (h : k ∈ dirNames es) :
    ∃ a e₀ b, es = appendDir a (FsDir.cons k e₀ b) ∧ k ∉ dirNames a := by
  induction es using FsDir.induct with
  | nil => simp [dirNames] at h
  | cons nm e rest ih =>
    by_cases hk : nm = k
    · exact ⟨FsDir.nil, e, rest, by rw [hk]; rfl, by simp [dirNames]⟩
    · rw [dirNames, List.mem_cons] at h
      rcases h with h | h
      · exact absurd h.symm hk
      · obtain ⟨a, e₀, b, hdec, hna⟩ := ih h
        refine ⟨FsDir.cons nm e a, e₀, b, by rw [appendDir, hdec], ?_⟩
        rw [dirNames, List.mem_cons]
        rintro (h' | h')
        · exact hk h'.symm
        · exact hna h'

/-! ### File-name lemmas -/

theorem endsWithSql_append (name : String) : endsWithSql (name ++ sqlExt) = true := by
  rw [endsWithSql, String.data_append]
  exact List.isSuffixOf_iff_suffix.mpr (List.suffix_append name.data sqlExt.data)

theorem replaceFirstList_append_sql (n : List Char) (h : ¬ sqlExt.data <:+: n) :
    replaceFirstList sqlExt.data (n ++ sqlExt.data) = n := by
  have hdata : sqlExt.data = ['.', 's', 'q', 'l'] := rfl
  rw [hdata] at h ⊢
  induction n with
  | nil => decide
  | cons c n' ih =>
    have h' : ¬ ['.', 's', 'q', 'l'] <:+: n' := fun hin => h (List.infix_cons hin)
    rw [List.cons_append, replaceFirstList]
    have hpre : List.isPrefixOf ['.', 's', 'q', 'l'] (c :: (n' ++ ['.', 's', 'q', 'l'])) = false := by
      by_contra hceq
      rw [Bool.not_eq_false] at hceq
      obtain ⟨t, ht⟩ := List.isPrefixOf_iff_prefix.mp hceq
      rcases n' with _ | ⟨a, _ | ⟨b, _ | ⟨d, t'⟩⟩⟩
      · simp at ht
      · simp at ht
      · simp at ht
      · simp only [List.cons_append, List.cons.injEq] at ht
        obtain ⟨hc, ha, hb, hd, -⟩ := ht
        apply h
        refine List.IsPrefix.isInfix ⟨t', ?_⟩
        simp [← hc, ← ha, ← hb, ← hd]
    simp only [hpre, Bool.false_eq_true, if_false]
    rw [ih h']

theorem stripSqlOnce_append (name : String) (h : ¬ sqlExt.data <:+: name.data) :
    stripSqlOnce (name ++ sqlExt) = name := by
  rw [stripSqlOnce, String.data_append, replaceFirstList_append_sql name.data h]

/-! ### Shape of a written snapshot tree

A written tree is four levels deep: the root holds `schemas`, below it
schema directories (never named `schemas`, never empty-named), then type
directories, then `.sql` files.  `SegOk` states the per-level name
condition the walk relies on, `WfEntry` the tree shape below one entry,
`PathOk` the same condition along one written path. -/

def SegOk : Nat → String → Prop
  | 0, nm => endsWithSql nm = true
  | 1, _ => True
  | 2, nm => nm ≠ "" ∧ nm ≠ "schemas"
  | 3, nm => nm = "schemas"
  | _ + 4, _ => False

def WfEntry : Nat → String → FsEntry → Prop
  | 0, nm, e => SegOk 0 nm ∧ ∃ c, e = FsEntry.file c
  | n + 1, nm, e => SegOk (n + 1) nm ∧ ∃ es, e = FsEntry.dir es
      ∧ (dirNames es).Nodup ∧ ∀ q ∈ dirToList es, WfEntry n q.1 q.2

def PathOk : Nat → List String → Prop
  | 0, [f] => SegOk 0 f
  | n + 1, d :: p => SegOk (n + 1) d ∧ PathOk n p
  | _, _ => False

theorem PathOk_ne_nil (n : Nat) (p : List String) (h : PathOk n p) : p ≠ [] := by
  intro hnil
  subst hnil
  cases n with
  | zero => exact h
  | succ m => exact h

theorem mem_treeFiles_of_decomp (a b : FsDir) (k : String) (e₀ : FsEntry) :
    ∀ pc ∈ entryFiles k e₀, pc ∈ treeFiles (appendDir a (FsDir.cons k e₀ b)) := by
  intro pc hpc
  rw [treeFiles_appendDir, treeFiles_cons]
  exact List.mem_append.mpr (Or.inr (List.mem_append.mpr (Or.inl hpc)))

theorem insertPath_nil_spec (n : Nat) :
    ∀ (p : List String) (v : String), PathOk n p →
      dirNames (insertPath FsDir.nil p v) = [p.headD ""]
      ∧ (∀ q ∈ dirToList (insertPath FsDir.nil p v), WfEntry n q.1 q.2)
      ∧ treeFiles (insertPath FsDir.nil p v) = [(p, v)] := by
  induction n with
  | zero =>
    intro p v hp
    match p, hp with
    | [f], hp =>
      refine ⟨rfl, ?_, rfl⟩
      intro q hq
      simp only [insertPath, anyName, Bool.false_eq_true, if_false, snocDir, dirToList,
        List.mem_singleton] at hq
      rw [hq]
      exact ⟨hp, v, rfl⟩
  | succ m ih =>
    intro p v hp
    match p, hp with
    | d :: p', hp =>
      obtain ⟨hseg, hp'⟩ := hp
      obtain ⟨seg, rest, rfl⟩ : ∃ seg rest, p' = seg :: rest := by
        cases p' with
        | nil => exact absurd rfl (PathOk_ne_nil m [] hp')
        | cons seg rest => exact ⟨seg, rest, rfl⟩
      obtain ⟨hn', hw', hf'⟩ := ih (seg :: rest) v hp'
      refine ⟨rfl, ?_, ?_⟩
      · intro q hq
        simp only [insertPath, anyName, Bool.false_eq_true, if_false, snocDir, dirToList,
          List.mem_singleton] at hq
        rw [hq]
        exact ⟨hseg, insertPath FsDir.nil (seg :: rest) v, rfl, by rw [hn']; exact List.nodup_singleton _, hw'⟩
      · show treeFiles (snocDir FsDir.nil d (FsEntry.dir (insertPath FsDir.nil (seg :: rest) v))) = _
        rw [snocDir, treeFiles_cons, entryFiles, hf', treeFiles]
        rfl

theorem perm_snoc_middle {α : Type} (A E B E' : List α) (x : α)
    (h : List.Perm E' (E ++ [x])) :
    List.Perm (A ++ (E' ++ B)) ((A ++ (E ++ B)) ++ [x]) := by
  have h1 : List.Perm (A ++ (E' ++ B)) (A ++ ((E ++ [x]) ++ B)) :=
    (h.append_right B).append_left A
  have h2 : A ++ ((E ++ [x]) ++ B) = A ++ (E ++ ([x] ++ B)) := by
    simp [List.append_assoc]
  have h3 : List.Perm (A ++ (E ++ ([x] ++ B))) (A ++ (E ++ (B ++ [x]))) :=
    (List.perm_append_comm.append_left E).append_left A
  have h4 : A ++ (E ++ (B ++ [x])) = (A ++ (E ++ B)) ++ [x] := by
    simp [List.append_assoc]
  rw [← h4, ← h2] at *
  exact (h2 ▸ h1).trans (h4 ▸ h3)

theorem insertPath_wf (n : Nat) :
    ∀ (p : List String) (es : FsDir) (v : String),
      PathOk n p →
      (dirNames es).Nodup →
      (∀ q ∈ dirToList es, WfEntry n q.1 q.2) →
      p ∉ (treeFiles es).map Prod.fst →
      (dirNames (insertPath es p v)).Nodup
      ∧ (∀ q ∈ dirToList (insertPath es p v), WfEntry n q.1 q.2)
      ∧ List.Perm (treeFiles (insertPath es p v)) (treeFiles es ++ [(p, v)]) := by
  induction n with
  | zero =>
    intro p es v hp hnd hwf hfresh
    match p, hp with
    | [f], hp =>
      rw [insertPath]
      cases hany : anyName es f with
      | true =>
        exfalso
        obtain ⟨a, e₀, b, hdec, hna⟩ := dir_decomp es f ((anyName_iff es f).mp hany)
        have hmem : (f, e₀) ∈ dirToList es := by
          rw [hdec, dirToList_appendDir, dirToList]
          exact List.mem_append.mpr (Or.inr (List.mem_cons_self _ _))
        obtain ⟨hseg₀, c, rfl⟩ := hwf (f, e₀) hmem
        apply hfresh
        refine List.mem_map.mpr ⟨([f], c), ?_, rfl⟩
        rw [hdec]
        exact mem_treeFiles_of_decomp a b f _ ([f], c) (by rw [entryFiles]; exact List.mem_singleton.mpr rfl)
      | false =>
        rw [if_neg (by simp [hany])]
        have hfn : f ∉ dirNames es := fun hm => by simp [(anyName_iff es f).mpr hm] at hany
        refine ⟨?_, ?_, ?_⟩
        · rw [snocDir_eq_appendDir, dirNames_appendDir]
          refine List.Nodup.append hnd (List.nodup_singleton f) ?_
          intro x hx hx'
          rw [dirNames, dirNames, List.mem_singleton] at hx'
          exact hfn (hx' ▸ hx)
        · intro q hq
          rw [snocDir_eq_appendDir, dirToList_appendDir, dirToList, dirToList] at hq
          rcases List.mem_append.mp hq with hq | hq
          · exact hwf q hq
          · rw [List.mem_singleton] at hq
            rw [hq]
            exact ⟨hp, v, rfl⟩
        · rw [snocDir_eq_appendDir, treeFiles_appendDir, treeFiles_cons, entryFiles, treeFiles]
          exact List.Perm.refl _
  | succ m ih =>
    intro p es v hp hnd hwf hfresh
    match p, hp with
    | d :: p', hp =>
      obtain ⟨hseg, hp'⟩ := hp
      obtain ⟨seg, rest, rfl⟩ : ∃ seg rest, p' = seg :: rest := by
        cases p' with
        | nil => exact absurd rfl (PathOk_ne_nil m [] hp')
        | cons seg rest => exact ⟨seg, rest, rfl⟩
      rw [insertPath]
      cases hany : anyName es d with
      | true =>
        rw [if_pos rfl]
        obtain ⟨a, e₀, b, hdec, hna⟩ := dir_decomp es d ((anyName_iff es d).mp hany)
        have hmem : (d, e₀) ∈ dirToList es := by
          rw [hdec, dirToList_appendDir, dirToList]
          exact List.mem_append.mpr (Or.inr (List.mem_cons_self _ _))
        obtain ⟨hseg₀, es₀, rfl, hnd₀, hwf₀⟩ := hwf (d, e₀) hmem
        have hnb : d ∉ dirNames b := by
          have hnd' := hnd
          rw [hdec, dirNames_appendDir, dirNames] at hnd'
          have := (List.nodup_append.mp hnd').2.1
          exact (List.nodup_cons.mp this).1
        have hrepl : replaceByName
            (fun e => FsEntry.dir (insertPath (childEntries e) (seg :: rest) v)) es d
            = appendDir a (FsDir.cons d
                (FsEntry.dir (insertPath es₀ (seg :: rest) v)) b) := by
          rw [hdec, replaceByName_appendDir, replaceByName_of_not_mem _ a d hna,
            replaceByName, if_pos rfl, replaceByName_of_not_mem _ b d hnb]
          rfl
        rw [hrepl]
        have hfresh₀ : (seg :: rest) ∉ (treeFiles es₀).map Prod.fst := by
          intro hmem'
          obtain ⟨pc, hpc, hfst⟩ := List.mem_map.mp hmem'
          apply hfresh
          refine List.mem_map.mpr ⟨(d :: pc.1, pc.2), ?_, by rw [← hfst]⟩
          rw [hdec]
          refine mem_treeFiles_of_decomp a b d _ _ ?_
          rw [entryFiles]
          exact List.mem_map.mpr ⟨pc, hpc, rfl⟩
        obtain ⟨hndI, hwfI, hpermI⟩ := ih (seg :: rest) es₀ v hp' hnd₀ hwf₀ hfresh₀
        refine ⟨?_, ?_, ?_⟩
        · rw [dirNames_appendDir, dirNames]
          have : dirNames es = dirNames a ++ d :: dirNames b := by
            rw [hdec, dirNames_appendDir, dirNames]
          rw [← this]
          exact hnd
        · intro q hq
          rw [dirToList_appendDir, dirToList] at hq
          rcases List.mem_append.mp hq with hq | hq
          · refine hwf q ?_
            rw [hdec, dirToList_appendDir]
            exact List.mem_append.mpr (Or.inl hq)
          · rcases List.mem_cons.mp hq with rfl | hq
            · exact ⟨hseg, insertPath es₀ (seg :: rest) v, rfl, hndI, hwfI⟩
            · refine hwf q ?_
              rw [hdec, dirToList_appendDir, dirToList]
              exact List.mem_append.mpr (Or.inr (List.mem_cons_of_mem _ hq))
        · rw [treeFiles_appendDir, treeFiles_cons, hdec, treeFiles_appendDir, treeFiles_cons]
          refine perm_snoc_middle _ _ _ _ _ ?_
          rw [entryFiles, entryFiles]
          refine (hpermI.map _).trans ?_
          rw [List.map_append]
          exact List.Perm.refl _
      | false =>
        rw [if_neg (by simp [hany])]
        have hfn : d ∉ dirNames es := fun hm => by simp [(anyName_iff es d).mpr hm] at hany
        obtain ⟨hnC, hwC, hfC⟩ := insertPath_nil_spec m (seg :: rest) v hp'
        refine ⟨?_, ?_, ?_⟩
        · rw [snocDir_eq_appendDir, dirNames_appendDir]
          refine List.Nodup.append hnd (List.nodup_singleton d) ?_
          intro x hx hx'
          rw [dirNames, dirNames, List.mem_singleton] at hx'
          exact hfn (hx' ▸ hx)
        · intro q hq
          rw [snocDir_eq_appendDir, dirToList_appendDir, dirToList, dirToList] at hq
          rcases List.mem_append.mp hq with hq | hq
          · exact hwf q hq
          · rw [List.mem_singleton] at hq
            rw [hq]
            exact ⟨hseg, insertPath FsDir.nil (seg :: rest) v, rfl,
              by rw [hnC]; exact List.nodup_singleton _, hwC⟩
        · rw [snocDir_eq_appendDir, treeFiles_appendDir, treeFiles_cons, entryFiles, hfC,
            treeFiles]
          exact List.Perm.refl _

/-! ### What the walk reads from a well-shaped tree -/

/-- Recover an object from a file at depth 0 under known schema and type. -/
def rec0 (s t : String) (pc : List String × String) : DatabaseObject :=
  ⟨s, stripSqlOnce (pc.1.headD ""), t, pc.2⟩

/-- Recover an object from a type-level path `[type, file]`. -/
def rec1 (s : String) (pc : List String × String) : DatabaseObject :=
  match pc.1 with
  | t :: p => ⟨s, stripSqlOnce (p.headD ""), t, pc.2⟩
  | [] => ⟨"", "", "", ""⟩

/-- Recover an object from a schema-level path `[schema, type, file]`. -/
def rec2 (pc : List String × String) : DatabaseObject :=
  match pc.1 with
  | s :: p => rec1 s (p, pc.2)
  | [] => ⟨"", "", "", ""⟩

/-- Recover an object from a root path `[schemas, schema, type, file]`. -/
def rec3 (pc : List String × String) : DatabaseObject :=
  match pc.1 with
  | _ :: p => rec2 (p, pc.2)
  | [] => ⟨"", "", "", ""⟩

theorem readDirectory_level0 (es : FsDir) (s t : String)
    (hwf : ∀ q ∈ dirToList es, WfEntry 0 q.1 q.2) :
    readDirectory es s t = (treeFiles es).map (rec0 s t) := by
  induction es using FsDir.induct with
  | nil => rfl
  | cons nm e rest ih =>
    obtain ⟨hseg, c, rfl⟩ := hwf (nm, e) (List.mem_cons_self _ _)
    have hseg' : endsWithSql nm = true := hseg
    rw [readDirectory, treeFiles, List.map_cons,
      ih (fun q hq => hwf q (List.mem_cons_of_mem _ hq))]
    rw [if_pos hseg']
    rfl

theorem readDirectory_level1 (es : FsDir) (s : String) (hs : s ≠ "")
    (hwf : ∀ q ∈ dirToList es, WfEntry 1 q.1 q.2) :
    readDirectory es s "" = (treeFiles es).map (rec1 s) := by
  induction es using FsDir.induct with
  | nil => rfl
  | cons nm e rest ih =>
    obtain ⟨-, es₀, rfl, -, hwf₀⟩ := hwf (nm, e) (List.mem_cons_self _ _)
    rw [readDirectory, treeFiles,
      ih (fun q hq => hwf q (List.mem_cons_of_mem _ hq))]
    rw [if_neg (by simp [hs]), if_pos ⟨hs, rfl⟩]
    rw [readDirectory_level0 es₀ s nm hwf₀, List.map_append, List.map_map]
    rfl

theorem readDirectory_level2 (es : FsDir)
    (hwf : ∀ q ∈ dirToList es, WfEntry 2 q.1 q.2) :
    readDirectory es "" "" = (treeFiles es).map rec2 := by
  induction es using FsDir.induct with
  | nil => rfl
  | cons nm e rest ih =>
    obtain ⟨⟨hne, hns⟩, es₀, rfl, -, hwf₀⟩ := hwf (nm, e) (List.mem_cons_self _ _)
    rw [readDirectory, treeFiles,
      ih (fun q hq => hwf q (List.mem_cons_of_mem _ hq))]
    rw [if_pos ⟨rfl, by simpa using hns⟩]
    rw [readDirectory_level1 es₀ nm hne hwf₀, List.map_append, List.map_map]
    rfl

theorem readDirectory_level3 (es : FsDir)
    (hwf : ∀ q ∈ dirToList es, WfEntry 3 q.1 q.2) :
    readDirectory es "" "" = (treeFiles es).map rec3 := by
  induction es using FsDir.induct with
  | nil => rfl
  | cons nm e rest ih =>
    obtain ⟨hschemas, es₀, rfl, -, hwf₀⟩ := hwf (nm, e) (List.mem_cons_self _ _)
    have hsch : nm = "schemas" := hschemas
    rw [readDirectory, treeFiles,
      ih (fun q hq => hwf q (List.mem_cons_of_mem _ hq))]
    rw [if_neg (by simp [hsch]), if_neg (by simp)]
    rw [readDirectory_level2 es₀ hwf₀, List.map_append, List.map_map]
    rfl

/-! ### The write fold and the round trip -/

/-- An object whose snapshot file round-trips: nonempty schema and type,
schema not the literal `schemas`, no `.sql` inside the name (the read-back
removes the first occurrence, not the suffix), and no path separator in
any segment (the model treats segments as opaque). -/
def GoodObj (o : DatabaseObject) : Prop :=
  o.schema ≠ "" ∧ o.type ≠ "" ∧ o.schema ≠ "schemas"
  ∧ ¬ sqlExt.data <:+: o.name.data
  ∧ '/' ∉ o.schema.data ∧ '/' ∉ o.type.data ∧ '/' ∉ o.name.data

instance (o : DatabaseObject) : Decidable (GoodObj o) := by
  unfold GoodObj
  infer_instance

theorem pathOk_snapshotPath (o : DatabaseObject) (h : GoodObj o) :
    PathOk 3 (snapshotPath o) := by
  obtain ⟨h1, -, h3, -, -⟩ := h
  exact ⟨rfl, ⟨h1, h3⟩, trivial, endsWithSql_append o.name⟩

theorem write_fold_wf :
    ∀ (objs : List DatabaseObject) (t : FsDir),
      (∀ o ∈ objs, GoodObj o) →
      (dirNames t).Nodup →
      (∀ q ∈ dirToList t, WfEntry 3 q.1 q.2) →
      (∀ o ∈ objs, snapshotPath o ∉ (treeFiles t).map Prod.fst) →
      (objs.map snapshotPath).Nodup →
      ((dirNames (objs.foldl (fun tr o => insertPath tr (snapshotPath o) o.definition) t)).Nodup
        ∧ (∀ q ∈ dirToList (objs.foldl (fun tr o => insertPath tr (snapshotPath o) o.definition) t),
            WfEntry 3 q.1 q.2))
      ∧ List.Perm
          (treeFiles (objs.foldl (fun tr o => insertPath tr (snapshotPath o) o.definition) t))
          (treeFiles t ++ objs.map (fun o => (snapshotPath o, o.definition))) := by
  intro objs
  induction objs with
  | nil =>
    intro t hg hnd hwf hfr hpaths
    exact ⟨⟨hnd, hwf⟩, by simp⟩
  | cons o os ih =>
    intro t hg hnd hwf hfr hpaths
    rw [List.foldl_cons]
    obtain ⟨hnd', hwf', hperm'⟩ := insertPath_wf 3 (snapshotPath o) t o.definition
      (pathOk_snapshotPath o (hg o (List.mem_cons_self o os)))
      hnd hwf (hfr o (List.mem_cons_self o os))
    rw [List.map_cons, List.nodup_cons] at hpaths
    have hfr' : ∀ o' ∈ os, snapshotPath o'
        ∉ (treeFiles (insertPath t (snapshotPath o) o.definition)).map Prod.fst := by
      intro o' ho' hmem
      have hmem2 : snapshotPath o'
          ∈ (treeFiles t ++ [(snapshotPath o, o.definition)]).map Prod.fst :=
        ((hperm'.map Prod.fst).mem_iff).mp hmem
      rw [List.map_append] at hmem2
      rcases List.mem_append.mp hmem2 with h | h
      · exact hfr o' (List.mem_cons_of_mem o ho') h
      · rw [List.map_cons, List.map_nil, List.mem_singleton] at h
        apply hpaths.1
        have h' : snapshotPath o' = snapshotPath o := h
        rw [← h']
        exact List.mem_map_of_mem snapshotPath ho'
    obtain ⟨⟨hndF, hwfF⟩, hpermF⟩ := ih (insertPath t (snapshotPath o) o.definition)
      (fun o' ho' => hg o' (List.mem_cons_of_mem o ho')) hnd' hwf' hfr' hpaths.2
    refine ⟨⟨hndF, hwfF⟩, ?_⟩
    refine hpermF.trans ?_
    refine (hperm'.append_right _).trans ?_
    rw [List.map_cons, List.append_assoc]
    exact List.Perm.refl _

/-- The round trip of the snapshot store for good objects with distinct
paths: reading the written tree back is a permutation of the written
objects. -/
theorem snapshot_write_read_perm (repoDir : String) (objs : List DatabaseObject)
    (hnd : (objs.map keyTriple).Nodup) (hg : ∀ o ∈ objs, GoodObj o) :
    List.Perm (getSavedDatabaseObjects (syncToGitFileSystem repoDir objs) repoDir) objs := by
  have hread : getSavedDatabaseObjects (syncToGitFileSystem repoDir objs) repoDir
      = readDirectory (writeSnapshotTree objs) "" "" := by
    rw [getSavedDatabaseObjects, syncToGitFileSystem, List.find?]
    simp
  have hpaths : (objs.map snapshotPath).Nodup := by
    have heq : objs.map snapshotPath
        = (objs.map keyTriple).map
            (fun tr => ["schemas", tr.1, tr.2.2, tr.2.1 ++ sqlExt]) := by
      rw [List.map_map]
      rfl
    rw [heq]
    refine List.Nodup.map ?_ hnd
    intro a b hab
    simp only [List.cons.injEq, and_true, true_and] at hab
    obtain ⟨hs, ht, hn⟩ := hab
    have hname : a.2.1 = b.2.1 := by
      have hd := congrArg String.data hn
      rw [String.data_append, String.data_append] at hd
      exact String.ext (List.append_cancel_right hd)
    exact Prod.ext hs (Prod.ext hname ht)
  obtain ⟨⟨hndW, hwfW⟩, hpermW⟩ := write_fold_wf objs FsDir.nil hg
    (by rw [dirNames]; exact List.nodup_nil)
    (by intro q hq; rw [dirToList] at hq; exact absurd hq (List.not_mem_nil q))
    (by intro o ho; rw [treeFiles]; simp)
    hpaths
  rw [hread, writeSnapshotTree, readDirectory_level3 _ hwfW]
  have hmaps : ((objs.map (fun o => (snapshotPath o, o.definition))).map rec3) = objs := by
    rw [List.map_map]
    have hcong : ∀ o ∈ objs,
        (rec3 ∘ fun o => (snapshotPath o, o.definition)) o = id o := by
      intro o ho
      obtain ⟨-, -, -, h4, -⟩ := hg o ho
      show (⟨o.schema, stripSqlOnce (o.name ++ sqlExt), o.type, o.definition⟩ : DatabaseObject)
        = o
      rw [stripSqlOnce_append o.name h4]
    rw [List.map_congr_left hcong, List.map_id]
  refine ((hpermW.map rec3).trans ?_)
  rw [show treeFiles FsDir.nil = [] from rfl, List.nil_append, hmaps]

/-- C3 amended: for any non-empty list of objects with unique identity
triples whose fields are round-trip-safe (nonempty schema and type free of
path separators, schema not the literal `schemas`, no `.sql` inside the
name), writing the snapshot as `_syncToGit` does and reading it back with
`_getSavedDatabaseObjects` yields a permutation of the input objects, so
the two sets agree by identity key and definition text. -/
theorem snapshot_roundtrip (repoDir : String) (objs : List DatabaseObject)
    (hne : objs ≠ [])
    (hnd : (objs.map keyTriple).Nodup)
    (hg : ∀ o ∈ objs, GoodObj o) :
    List.Perm (getSavedDatabaseObjects (syncToGitFileSystem repoDir objs) repoDir) objs :=
  snapshot_write_read_perm repoDir objs hnd hg

/-- Object for the C3 witness. -/
def rtObj : DatabaseObject := ⟨"dbo", "Orders", "tables", "CREATE TABLE [dbo].[Orders] ();"⟩

/-- Witness for the amended C3: one concrete object survives the round
trip. -/
theorem snapshot_roundtrip_witness :
    List.Perm (getSavedDatabaseObjects (syncToGitFileSystem "/repo" [rtObj]) "/repo") [rtObj] :=
  snapshot_roundtrip "/repo" [rtObj] (by decide) (by decide) (by decide)

/-! ### C6: identity-key uniqueness of constructed snapshots -/

/-- Catalog row duplicated in the C6 counterexample. -/
def dupCatRow : CatalogRow := ⟨"dbo", "V", "views", "select 1"⟩

/-- C6 counterexample: the catalog read performs no deduplication, so a row
set holding the same row twice yields a snapshot with two objects sharing
the identity triple `(dbo, V, views)`. -/
theorem snapshot_uniqueness_counterexample :
    ¬ ((retrieveDatabaseObjects [dupCatRow, dupCatRow] [] []).map keyTriple).Nodup := by
  decide

/-- C6 amended: snapshots have unique identity triples only as far as their
inputs do.  When the catalog row set carries pairwise-distinct
`(SchemaName, ObjectName, ObjectType)` triples, the list built by
`RetrieveDatabaseObjects` has unique identity triples (synthesis rewrites
only definitions); and the on-disk snapshot read back from a tree written
by `_syncToGit` from a unique-keyed, round-trip-safe object list has
unique identity triples. -/
theorem snapshot_uniqueness (rows : List CatalogRow) (colRows : List ColumnRow)
    (pkRows : List PrimaryKeyRow) (repoDir : String) (objs : List DatabaseObject)
    (hrows : (rows.map (fun r => (r.SchemaName, r.ObjectName, r.ObjectType))).Nodup)
    (hobjs : (objs.map keyTriple).Nodup) (hg : ∀ o ∈ objs, GoodObj o) :
    ((retrieveDatabaseObjects rows colRows pkRows).map keyTriple).Nodup
    ∧ ((getSavedDatabaseObjects (syncToGitFileSystem repoDir objs) repoDir).map
        keyTriple).Nodup := by
  constructor
  · rw [retrieveDatabaseObjects,
      forall₂_keyTriple (setMissing_frame colRows pkRows (rows.map catalogRowToObject)),
      List.map_map]
    exact hrows
  · have hperm := (snapshot_write_read_perm repoDir objs hobjs hg).map keyTriple
    exact hperm.nodup_iff.mpr hobjs

/-- Witness for the amended C6 at concrete inputs. -/
theorem snapshot_uniqueness_witness :
    ((retrieveDatabaseObjects [dupCatRow] [] []).map keyTriple).Nodup
    ∧ ((getSavedDatabaseObjects (syncToGitFileSystem "/r" [rtObj]) "/r").map
        keyTriple).Nodup :=
  snapshot_uniqueness [dupCatRow] [] [] "/r" [rtObj] (by decide) (by decide) (by decide)
